import Mathlib

/-!
Verification of the incremental GraphQL execution core (patch dispatcher).

The development shallowly embeds the JavaScript sources:
  * `src/type/patch.js` — `PatchDispatcher` (labelled variant), `applyPatch`,
    `getPathIntersection`, `getValue` and `setValue`;
  * the label-less `PatchDispatcher` variant (`dispatch`, `getAsyncIterable`);
  * the flat `Dispatcher` variant (`execute`, `add`, `get`).

JavaScript values are modelled as finite trees (`JSValue`); objects are
insertion-ordered association lists, mirroring the enumeration order of
string-keyed properties.  Mutation and aliasing of arrays, which the pure
tree model cannot express, are modelled separately by a heap-based embedding
(`applyPatchH`) in which arrays and objects live at addresses.
-/

/-- A response-path segment: a field name (string) or a list index (number).
JavaScript compares segments with strict equality, so a number is never equal
to a string. -/
inductive Seg where
  | fld (s : String)
  | idx (n : Nat)
deriving DecidableEq, Repr

/-- A JavaScript value as a finite tree.  Objects keep their fields as an
insertion-ordered association list.  Numbers are modelled as integers: every
number appearing in the sources is a small integer and only equality and
truthiness of numbers are ever used. -/
inductive JSValue where
  | jnull
  | jundefined
  | jbool (b : Bool)
  | jnum (n : Int)
  | jstr (s : String)
  | jarr (elems : List JSValue)
  | jobj (fields : List (String × JSValue))

namespace JSValue

/-- JavaScript truthiness. -/
def toBool : JSValue → Bool
  | .jnull => false
  | .jundefined => false
  | .jbool b => b
  | .jnum n => n != 0
  | .jstr s => s != ""
  | .jarr _ => true
  | .jobj _ => true

end JSValue

/-- The property key a segment denotes: JavaScript coerces numeric keys to
their decimal string form. -/
def segKey : Seg → String
  | .fld s => s
  | .idx n => toString n

/-- The array index a segment denotes, when it denotes one.  JavaScript
treats the string form of a canonical natural number as an array index
(`a["2"]` is `a[2]`); keys with leading zeros never occur in paths. -/
def segIdx? : Seg → Option Nat
  | .idx n => some n
  | .fld s => s.toNat?

/-- Truthiness of a path segment, as tested by `filter(Boolean)` in
`getPathIntersection`: the number `0` and the empty string are falsy. -/
def truthySeg : Seg → Bool
  | .idx n => n != 0
  | .fld s => s != ""

/-- Property read `v[seg]`, as used by `applyPatch` and by the
path-intersection walk in `getPatches`.  Reading an absent property gives
`undefined`; reading a property of `null` or `undefined` throws in
JavaScript, which the total model renders as `undefined` (all theorems are
evaluated on inputs where the read is defined). -/
def getProp : JSValue → Seg → JSValue
  | .jobj fs, s =>
      match fs.find? (fun p => p.1 == segKey s) with
      | some p => p.2
      | none => .jundefined
  | .jarr xs, s =>
      match segIdx? s with
      | some i => xs.getD i .jundefined
      | none => .jundefined
  | .jstr str, s =>
      match segIdx? s with
      | some i =>
          match str.data.get? i with
          | some c => .jstr (String.mk [c])
          | none => .jundefined
      | none => .jundefined
  | _, _ => .jundefined

/-- Assign key `k` in an insertion-ordered field list, as JavaScript property
assignment does: an existing key keeps its position and takes the new value,
a new key is appended. -/
def setField {α : Type} (fs : List (String × α)) (k : String) (v : α) :
    List (String × α) :=
  if fs.any (fun p => p.1 == k) then
    fs.map (fun p => if p.1 == k then (k, v) else p)
  else
    fs ++ [(k, v)]

/-- Fold a list of property assignments onto a field list; this is the
semantics of object spread, where later properties override earlier ones in
place. -/
def mergeFields {α : Type} (l r : List (String × α)) : List (String × α) :=
  r.foldl (fun acc p => setField acc p.1 p.2) l

/-- The own enumerable string-keyed properties a value contributes when
spread into an object literal: objects give their fields, arrays enumerate
their elements under numeric keys, strings enumerate their characters, and
primitives contribute nothing. -/
def spreadFields : JSValue → List (String × JSValue)
  | .jobj fs => fs
  | .jarr xs => xs.enum.map (fun p => (toString p.1, p.2))
  | .jstr s => s.data.enum.map (fun p => (toString p.1, .jstr (String.mk [p.2])))
  | _ => []

/-- The object literal with two spreads, as in the sources. -/
def objMerge (a b : JSValue) : JSValue :=
  .jobj (mergeFields (spreadFields a) (spreadFields b))

/-- Array element assignment `xs[i] = v`: assigning past the end extends the
array, the gap reading back as `undefined`. -/
def padSet (xs : List JSValue) (i : Nat) (v : JSValue) : List JSValue :=
  if i < xs.length then xs.set i v
  else xs ++ List.replicate (i - xs.length) .jundefined ++ [v]

/-- Embedding of `applyPatch(prevData, path, data)` from `src/type/patch.js`.

The source destructures `const [nextPath, ...rest] = path`.  When `rest` is
nonempty it recurses with
`nextPrevData = prevData && prevData[nextPath] ? prevData[nextPath] : prevData`
— note that when the property is absent or falsy the recursion continues on
`prevData` itself, not on a fresh empty object.  Then, if `prevData` is an
array, it assigns `prevData[nextPath] = spread-merge of prevData[nextPath]
and nextData` in place and returns the same array; otherwise it returns a
shallow copy of `prevData` with key `nextPath` bound to `nextData`.

On the empty path `nextPath` is `undefined`: the object branch produces a
copy with the key coerced to the string form of `undefined`; the array
branch assigns a non-index property of the array, leaving its elements
unchanged (the tree model records only the elements).  The tree model is the
call-by-value reading of the function; in-place mutation of arrays is
modelled separately by `applyPatchH` below. -/
def applyPatch (prevData : JSValue) (path : List Seg) (data : JSValue) :
    JSValue :=
  match path with
  | [] =>
      match prevData with
      | .jarr xs => .jarr xs
      | _ => .jobj (mergeFields (spreadFields prevData) [("undefined", data)])
  | nextPath :: rest =>
      let nextData :=
        if rest.isEmpty then data
        else
          let pv := getProp prevData nextPath
          applyPatch (if prevData.toBool && pv.toBool then pv else prevData)
            rest data
      match prevData with
      | .jarr xs =>
          match segIdx? nextPath with
          | some i =>
              .jarr (padSet xs i (objMerge (getProp prevData nextPath) nextData))
          | none => .jarr xs
      | _ =>
          .jobj (mergeFields (spreadFields prevData)
            [(segKey nextPath, nextData)])

/-- The body of `getPathIntersection` past its empty-`path2` guard:
`path1.map((el, i) => path2[i] === el ? el : undefined).filter(Boolean)`.
The `filter(Boolean)` step drops both the `undefined` placeholders and any
matching segment that is itself falsy (index `0`, empty string). -/
def gpiCore (path1 path2 : List Seg) : List Seg :=
  (path1.enum.map
      (fun p => if path2.get? p.1 = some p.2 then some p.2 else none)).filterMap
    (fun o =>
      match o with
      | some el => if truthySeg el then some el else none
      | none => none)

/-- Embedding of `getPathIntersection(path1, path2)` from
`src/type/patch.js`.  A `null` or empty `path2` returns a copy of `path1`;
otherwise the positionwise-matching, truthy segments of `path1` are kept. -/
def getPathIntersection (path1 path2 : List Seg) : List Seg :=
  if path2.isEmpty then path1
  else gpiCore path1 path2

/-- The longest common prefix of two paths, stated from the specification
(section: Longest common prefix): the longest path whose segments pairwise
equal the corresponding segments of both inputs.  This definition follows
the words of the spec and is compared against `getPathIntersection`. -/
def lcpSpec : List Seg → List Seg → List Seg
  | a :: as, b :: bs => if a = b then a :: lcpSpec as bs else []
  | _, _ => []

/-- Pairwise-recursive description of the positionwise intersection: keep a
segment of the first path when the second path carries an equal segment at
the same position and the segment is truthy. -/
def pointwiseAgree : List Seg → List Seg → List Seg
  | [], _ => []
  | _ :: _, [] => []
  | a :: as, b :: bs =>
      if a = b ∧ truthySeg a then a :: pointwiseAgree as bs
      else pointwiseAgree as bs

/-- A GraphQL error, opaque to the dispatcher: the sources only collect and
concatenate errors, never inspect them. -/
structure GQLError where
  message : String
  path : List Seg
deriving DecidableEq, Repr

/-- The `value` component of a resolved sibling promise in the labelled
`PatchDispatcher`: an `ExecutionPatchResult` with its optional `errors`
list (`errors` may be absent, which is distinct from present-and-empty). -/
structure PatchValue where
  path : List Seg
  data : JSValue
  errors : Option (List GQLError)

/-- An emitted Patch Record `\x7b path, label, data, errors? \x7d`; the
`errors` key is present exactly when the aggregated error list is
nonempty. -/
structure PatchRecord where
  path : List Seg
  label : String
  data : JSValue
  errors : Option (List GQLError)

/-- The state threaded through the `reduce` in `getPatches`:
`pathIntersection`, `patchErrors` and the accumulating `patchData`. -/
structure AggSt where
  pathIntersection : List Seg
  patchErrors : List GQLError
  patchData : JSValue

/-- One step of the `reduce` in `getPatches` (lines 125-136 of
`src/type/patch.js`): append the errors of the unit when present and
nonempty, replace the path intersection by
`getPathIntersection(path, pathIntersection)`, and fold the data tree in
with `applyPatch`. -/
def aggStep (st : AggSt) (v : PatchValue) : AggSt :=
  { pathIntersection := getPathIntersection v.path st.pathIntersection
    patchErrors :=
      match v.errors with
      | some es => if es.length != 0 then st.patchErrors ++ es else st.patchErrors
      | none => st.patchErrors
    patchData := applyPatch st.patchData v.path v.data }

/-- The per-label aggregation performed by `getPatches` once all sibling
promises of a label have resolved: reduce over the values starting from the
empty object, then walk `patchData` down the final path intersection, and
attach the collected errors when any. -/
def aggregateLabel (label : String) (values : List PatchValue) : PatchRecord :=
  let st := values.foldl aggStep ⟨[], [], .jobj []⟩
  { path := st.pathIntersection
    label := label
    data := st.pathIntersection.foldl getProp st.patchData
    errors := if st.patchErrors.isEmpty then none else some st.patchErrors }

/-- The result of `getPatches()` as a function of the `_isEmpty` flag and
the completed contents of `_siblings` (keys in insertion order, each with
its sibling values in registration order): `null` when `_isEmpty`, otherwise
one aggregated record per label, in key order.  The consumer-facing
iterator hands out `results` by `shift()`, so the sequence of yielded
records is exactly this list. -/
def getPatchesModel (isEmpty : Bool)
    (siblings : List (String × List PatchValue)) : Option (List PatchRecord) :=
  if isEmpty then none
  else some (siblings.map (fun kv => aggregateLabel kv.1 kv.2))

/-- `setValue(map, value, key)` on a label-keyed map of lists: append under
an existing key, or create the key (at the end, in insertion order) with a
singleton list. -/
def pushUnder {α : Type} (m : List (String × List α)) (k : String) (v : α) :
    List (String × List α) :=
  if m.any (fun p => p.1 == k) then
    m.map (fun p => if p.1 == k then (p.1, p.2 ++ [v]) else p)
  else
    m ++ [(k, [v])]

/-- An operation performed on the labelled `PatchDispatcher` during
execution: `dispatch` (which flips `_isEmpty`, installs a resolver and
appends a sibling promise) or `deferDispatch` (which only records a child
under the label and parent path, leaving `_isEmpty` untouched).  The
`dispatch` payload carries the value its sibling promise eventually
resolves with. -/
inductive POp where
  | dispatch (label : String) (path : List Seg) (value : PatchValue)
  | deferDispatch (label : String) (parentPath : List Seg) (path : List Seg)

/-- Whether the operation is a `dispatch`. -/
def POp.isDispatch : POp → Bool
  | .dispatch _ _ _ => true
  | .deferDispatch _ _ _ => false

/-- The dispatcher state the model tracks: the `_isEmpty` flag, the
`_siblings` map and the `_children` map (children keyed by label, each
entry pairing the parent path with the child path). -/
structure PDState where
  isEmpty : Bool
  siblings : List (String × List PatchValue)
  children : List (String × List (List Seg × List Seg))

/-- Effect of one dispatcher operation on the state, from
`src/type/patch.js` lines 77-104. -/
def applyPOp (s : PDState) : POp → PDState
  | .dispatch label _path v =>
      { isEmpty := false
        siblings := pushUnder s.siblings label v
        children := s.children }
  | .deferDispatch label parentPath path =>
      { s with children := pushUnder s.children label (parentPath, path) }

/-- Run a sequence of dispatcher operations from the freshly constructed
state (`_isEmpty` true, empty maps). -/
def runPOps (ops : List POp) : PDState :=
  ops.foldl applyPOp ⟨true, [], []⟩

/-- The behaviour of the resolver thunk passed to `Dispatcher.add`: it can
return a value, throw synchronously, or return a promise that later
fulfills or rejects. -/
inductive FnResult where
  | val (v : JSValue)
  | thrown (e : GQLError)
  | promiseOk (v : JSValue)
  | promiseErr (e : GQLError)

/-- What `execute` hands back: a plain value, or the (still pending)
promise returned by the thunk. -/
inductive ExecOut where
  | value (v : JSValue)
  | promiseOk (v : JSValue)
  | promiseErr (e : GQLError)

/-- Embedding of `Dispatcher.execute(fn, errors)`: call the thunk; on a
synchronous throw push the error onto the shared `errors` array and return
`null`; otherwise return whatever the thunk returned (possibly a
promise). -/
def executeModel (fr : FnResult) (errs : List GQLError) :
    ExecOut × List GQLError :=
  match fr with
  | .val v => (.value v, errs)
  | .thrown e => (.value .jnull, errs ++ [e])
  | .promiseOk v => (.promiseOk v, errs)
  | .promiseErr e => (.promiseErr e, errs)

/-- How the patch promise pushed by `Dispatcher.add` eventually settles:
with an iterator-protocol record, or rejected. -/
inductive PatchOutcome where
  | fulfilled (r : PatchRecord)
  | rejected (e : GQLError)

/-- Embedding of `Dispatcher.add(label, path, fn, errors)`.

The source wraps the result of `execute` as
`Promise.resolve(execute(fn, errors)).then(data => ...)`.  When `execute`
returns a promise, `Promise.resolve` adopts it: the `then` callback
receives the settled value, never the promise object, so the
`isPromise(data)` test inside the callback is false on every reachable
input and its rejection-handling branch is dead code.  A thunk returning a
promise that fulfills with `v` therefore produces the same record as a
thunk returning `v` directly; a thunk returning a promise that rejects
skips the callback entirely and the pushed patch promise itself rejects,
producing no record at all.  A record carries `errors` exactly when the
shared `errors` array is nonempty when the callback runs. -/
def addModel (label : String) (path : List Seg) (fr : FnResult)
    (errs : List GQLError) : PatchOutcome :=
  match executeModel fr errs with
  | (.value v, errs2) =>
      .fulfilled
        { data := v, path := path, label := label
          errors := if errs2.isEmpty then none else some errs2 }
  | (.promiseOk v, errs2) =>
      .fulfilled
        { data := v, path := path, label := label
          errors := if errs2.isEmpty then none else some errs2 }
  | (.promiseErr e, _) => .rejected e

/-- Arguments of one `Dispatcher.add` call. -/
structure AddCall where
  label : String
  path : List Seg
  fn : FnResult
  errs : List GQLError

/-- The `_patches` array after a sequence of `add` calls. -/
def runAdds (calls : List AddCall) : List PatchOutcome :=
  calls.map (fun c => addModel c.label c.path c.fn c.errs)

/-- Embedding of the `race` used by `Dispatcher.get`: every pending promise
is given a completion time, and `resolve` is won by the promise that
settles first; among promises settling at the same instant the one whose
callback was attached first (lowest index) wins.  Returns the winning index
and entry. -/
def raceWinner : List (Nat × PatchRecord) → Option (Nat × (Nat × PatchRecord))
  | [] => none
  | p :: ps =>
      match raceWinner ps with
      | none => some (0, p)
      | some (j, q) => if p.1 ≤ q.1 then some (0, p) else some (j + 1, q)

/-- One round of the emission loop of `Dispatcher.get` (`getNext`): race the
remaining patch promises, splice out the winner, yield it, and iterate.
Each round removes one element, so running the loop `l.length` times drains
the list completely; the explicit round counter makes the recursion
structural. -/
def drainGo : Nat → List (Nat × PatchRecord) → List (Nat × PatchRecord)
  | 0, _ => []
  | fuel + 1, l =>
      match raceWinner l with
      | none => []
      | some (i, p) => p :: drainGo fuel (l.eraseIdx i)

/-- The full sequence yielded by the iterator of `Dispatcher.get`, given the
`_patches` entries tagged with their completion times: patches are emitted
in completion order (ties resolved towards the earlier registration),
independent of registration order. -/
def drainPatches (l : List (Nat × PatchRecord)) : List (Nat × PatchRecord) :=
  drainGo l.length l

/-- A sibling value tagged with the instant at which its promise settles. -/
structure TimedPatchValue where
  time : Nat
  value : PatchValue

/-- The sequence of records yielded by the iterator of
`PatchDispatcher.getPatches`, given the timed contents of `_siblings`.

The iterator closes over `results`, an array holding one aggregate promise
per label in key-insertion order, and its `next()` is `results.shift()`;
the consumer awaits each yielded promise before asking for the next one.
The k-th yielded record is therefore the aggregate of the k-th registered
label whatever the completion instants are: the times influence only when
each promise settles, never which promise is handed out next.  `Promise.all`
likewise delivers the sibling values in registration order, not completion
order, so within a label the reduce runs over registration order too. -/
def getPatchesEmission (siblings : List (String × List TimedPatchValue)) :
    List PatchRecord :=
  siblings.map (fun kv => aggregateLabel kv.1 (kv.2.map (fun tv => tv.value)))

/-- State of the iterator returned by `getPatches` /
`getAsyncIterable`: the queue of not-yet-yielded result promises.  `next()`
is `results.shift() || this.return()` and `return()` builds a fresh
`\x7b value: undefined, done: true \x7d` without touching `results`. -/
def iterNext (queue : List PatchRecord) :
    (Option PatchRecord × Bool) × List PatchRecord :=
  match queue with
  | [] => ((none, true), [])
  | p :: rest => ((some p, false), rest)

/-- The `return()` operation of the same iterator: it resolves to a done
result but has no effect on the queue. -/
def iterReturn (queue : List PatchRecord) :
    (Option PatchRecord × Bool) × List PatchRecord :=
  ((none, true), queue)

/-- A dispatched patch together with the children registered under its
label and path, and the intrinsic delay of its promise: when the patch is
dispatched at instant `t`, its promise settles at `t + delay + 1` (a `then`
callback never runs earlier than the next turn, hence the `+ 1`). -/
inductive PatchTree where
  | node (label : String) (path : List Seg) (delay : Nat)
      (children : List PatchTree)

/-- The label of the root patch. -/
def PatchTree.labelOf : PatchTree → String
  | .node l _ _ _ => l

/-- The path of the root patch. -/
def PatchTree.pathOf : PatchTree → List Seg
  | .node _ p _ _ => p

/-- An observable action of `PatchDispatcher.dispatch`: a recursive
`dispatch` call for a registered child, or the signalling of the resolver
installed for the completed patch. -/
inductive DEvent where
  | childDispatch (label : String) (path : List Seg)
  | signal (label : String) (path : List Seg)
deriving DecidableEq, Repr

mutual
/-- The timestamped actions performed by `PatchDispatcher.dispatch` (lines
81-104 of `src/type/patch.js`) for a patch dispatched at instant `t`: when
its promise settles, the completion handler first dispatches every child
registered under the label and the patch path, in registration order, and
only then signals the resolver; each child then runs the same protocol from
its own dispatch instant. -/
def dispatchRun : PatchTree → Nat → List (Nat × DEvent)
  | .node label path delay children, t =>
      let tc := t + delay + 1
      (children.map (fun c => (tc, DEvent.childDispatch label c.pathOf)))
        ++ [(tc, DEvent.signal label path)]
        ++ dispatchRunList children tc

/-- The actions of a list of patches all dispatched at instant `t`. -/
def dispatchRunList : List PatchTree → Nat → List (Nat × DEvent)
  | [], _ => []
  | c :: cs, t => dispatchRun c t ++ dispatchRunList cs t
end

/-- A primitive JavaScript value (no identity). -/
inductive Prim where
  | pnull
  | pUndefined
  | pbool (b : Bool)
  | pnum (n : Int)
  | pstr (s : String)
deriving DecidableEq, Repr

/-- A runtime value in the heap model: a primitive, or a reference to a
heap-allocated array or object. -/
inductive HVal where
  | prim (p : Prim)
  | ref (a : Nat)
deriving DecidableEq, Repr

/-- A heap node: an array of values or an object with insertion-ordered
fields (values are shallow — they may be references). -/
inductive HNode where
  | arrN (elems : List HVal)
  | objN (fields : List (String × HVal))
deriving DecidableEq, Repr

/-- The heap: node at address `a` is the list entry at position `a`;
allocation appends. -/
abbrev Heap := List HNode

/-- Truthiness in the heap model: every array or object reference is
truthy. -/
def truthyH : HVal → Bool
  | .prim .pnull => false
  | .prim .pUndefined => false
  | .prim (.pbool b) => b
  | .prim (.pnum n) => n != 0
  | .prim (.pstr s) => s != ""
  | .ref _ => true

/-- Property read `v[seg]` in the heap model. -/
def getPropH (h : Heap) (v : HVal) (s : Seg) : HVal :=
  match v with
  | .ref a =>
      match List.get? h a with
      | some (.objN fs) =>
          match fs.find? (fun p => p.1 == segKey s) with
          | some p => p.2
          | none => .prim .pUndefined
      | some (.arrN xs) =>
          match segIdx? s with
          | some i => xs.getD i (.prim .pUndefined)
          | none => .prim .pUndefined
      | none => .prim .pUndefined
  | .prim (.pstr str) =>
      match segIdx? s with
      | some i =>
          match str.data.get? i with
          | some c => .prim (.pstr (String.mk [c]))
          | none => .prim .pUndefined
      | none => .prim .pUndefined
  | _ => .prim .pUndefined

/-- The own enumerable properties contributed by spreading a value, in the
heap model; the copy is shallow, so reference values are copied as
references. -/
def spreadH (h : Heap) (v : HVal) : List (String × HVal) :=
  match v with
  | .ref a =>
      match List.get? h a with
      | some (.objN fs) => fs
      | some (.arrN xs) => xs.enum.map (fun p => (toString p.1, p.2))
      | none => []
  | .prim (.pstr s) =>
      s.data.enum.map (fun p => (toString p.1, .prim (.pstr (String.mk [p.2]))))
  | _ => []

/-- Allocate a fresh object node and return its reference. -/
def allocObj (h : Heap) (fs : List (String × HVal)) : Heap × HVal :=
  (h ++ [.objN fs], .ref h.length)

/-- Array element assignment with past-the-end padding, heap-model values. -/
def padSetH (xs : List HVal) (i : Nat) (v : HVal) : List HVal :=
  if i < xs.length then xs.set i v
  else xs ++ List.replicate (i - xs.length) (.prim .pUndefined) ++ [v]

/-- The assignment step performed by the heap-model `applyPatch` after its
recursive call, on the heap `h1` the recursion produced: when `prevData`
references an array node and the segment is an index, the merged object
`\x7b ...prevData[nextPath], ...nextData \x7d` is allocated and its reference
stored into the array node in place, returning the original reference; a
non-index segment over an array targets a named property of the array
object, which holds no elements, so the node is unchanged; in every other
case a fresh object is allocated, copying the fields of `prevData` and
binding the segment key to `nextData`. -/
def applyPatchHSet (h1 : Heap) (prevData : HVal) (nextPath : Seg)
    (nextData : HVal) : Heap × HVal :=
  match prevData with
  | .ref a =>
      match List.get? h1 a with
      | some (.arrN xs) =>
          match segIdx? nextPath with
          | some i =>
              let old := getPropH h1 prevData nextPath
              let merged := mergeFields (spreadH h1 old) (spreadH h1 nextData)
              ((h1 ++ [HNode.objN merged]).set a
                  (.arrN (padSetH xs i (.ref h1.length))),
                prevData)
          | none => (h1, prevData)
      | _ =>
          allocObj h1 (mergeFields (spreadH h1 prevData)
            [(segKey nextPath, nextData)])
  | _ =>
      allocObj h1 (mergeFields (spreadH h1 prevData)
        [(segKey nextPath, nextData)])

/-- Heap-model embedding of `applyPatch`, making mutation and identity
observable.

Mirrors the source exactly as `applyPatch` does, but with an explicit heap:
the recursion descends exactly as in the tree model, and the assignment
after the recursion is `applyPatchHSet`, which reads from the heap the
recursion produced (the source reads `prevData[nextPath]` only at
assignment time).  On an empty path the object branch copies `prevData`
with the key coerced to the string form of `undefined`, while the array
branch assigns a named property of the array object, holding no elements,
so the node is unchanged. -/
def applyPatchH (h : Heap) (prevData : HVal) (path : List Seg) (data : HVal) :
    Heap × HVal :=
  match path with
  | [] =>
      match prevData with
      | .ref a =>
          match List.get? h a with
          | some (.arrN _) => (h, prevData)
          | _ => allocObj h (mergeFields (spreadH h prevData)
              [("undefined", data)])
      | _ => allocObj h (mergeFields (spreadH h prevData) [("undefined", data)])
  | nextPath :: rest =>
      let hn : Heap × HVal :=
        if rest.isEmpty then (h, data)
        else
          let pv := getPropH h prevData nextPath
          applyPatchH h
            (if truthyH prevData && truthyH pv then pv else prevData)
            rest data
      applyPatchHSet hn.1 prevData nextPath hn.2

/-- The descent step of `applyPatch`:
`prevData && prevData[nextPath] ? prevData[nextPath] : prevData` — the next
accumulator is the property value when both the accumulator and that value
are truthy, and otherwise the accumulator itself (not a fresh object). -/
def descend (prevData : JSValue) (s : Seg) : JSValue :=
  let pv := getProp prevData s
  if prevData.toBool && pv.toBool then pv else prevData

/-- The assignment step of `applyPatch`: on an array, the element at the
index is replaced by the spread-merge of the old element and the incoming
value (a non-index segment writes a named property, leaving elements
unchanged); on anything else, a shallow copy with the segment key bound to
the incoming value, overwriting whatever was there. -/
def setStep (prevData : JSValue) (s : Seg) (v : JSValue) : JSValue :=
  match prevData with
  | .jarr xs =>
      match segIdx? s with
      | some i => .jarr (padSet xs i (objMerge (getProp prevData s) v))
      | none => .jarr xs
  | _ => .jobj (mergeFields (spreadFields prevData) [(segKey s, v)])

/-- Definition following the words of claim C5, for comparison with the
source `applyPatch`: walk the path into the accumulator, creating a fresh
empty intermediate object where the key is absent (or its value falsy); at
the final segment merge into the element when the container is a list and
otherwise overwrite the position. -/
def applyPatchClaim (acc : JSValue) (path : List Seg) (d : JSValue) :
    JSValue :=
  match path with
  | [] => d
  | s :: rest =>
      let sub :=
        if rest.isEmpty then d
        else applyPatchClaim
          (if (getProp acc s).toBool then getProp acc s else .jobj []) rest d
      match acc with
      | .jarr xs =>
          match segIdx? s with
          | some i => .jarr (padSet xs i (objMerge (getProp acc s) sub))
          | none => .jarr xs
      | _ => .jobj (mergeFields (spreadFields acc) [(segKey s, sub)])

/-- Modelled from the spec: the Executor and its `@stream` handling
(`graphql` / `execute`) are not under `src/`; only `src/type/patch.js`, a
second dispatcher variant and the tests are.  Following the spec (section
4.2, Traversal; section 3, Invariants; P3): for
`@stream(initial_count: N, label:)` on a list field, elements at indices
`0 … N-1` are resolved into the initial result, and for each remaining
index `i ≥ N` one Stream Unit is registered carrying path
`[...field_path, i]`, producing one patch per trailing element, in list
order, whose data is that element. -/
def streamExecute (fieldPath : List Seg) (label : String) (n : Nat)
    (elems : List JSValue) : List JSValue × List PatchRecord :=
  (elems.take n,
    (List.range (elems.length - n)).map (fun k =>
      { path := fieldPath ++ [Seg.idx (n + k)]
        label := label
        data := elems.getD (n + k) .jundefined
        errors := none }))

/-- The guard of `Dispatcher.get` (flat variant): `null` when no patch was
ever added, the patch list otherwise. -/
def dispatcherGet (patches : List PatchOutcome) : Option (List PatchOutcome) :=
  if patches.length == 0 then none else some patches

/-- A consumer operation on the patch iterator. -/
inductive IterOp where
  | next
  | ret

/-- Whether the operation is a `next()` call. -/
def IterOp.isNext : IterOp → Bool
  | .next => true
  | .ret => false

/-- Run a sequence of consumer operations against the iterator, collecting
the iterator results and the final queue. -/
def runIterOps : List IterOp → List PatchRecord →
    List (Option PatchRecord × Bool) × List PatchRecord
  | [], q => ([], q)
  | .next :: ops, q =>
      let r := iterNext q
      let rest := runIterOps ops r.2
      (r.1 :: rest.1, rest.2)
  | .ret :: ops, q =>
      let r := iterReturn q
      let rest := runIterOps ops r.2
      (r.1 :: rest.1, rest.2)

theorem raceWinner_idx_lt {l : List (Nat × PatchRecord)} {i : Nat}
    {p : Nat × PatchRecord} (h : raceWinner l = some (i, p)) : i < l.length := by
  induction l generalizing i p with
  | nil => simp [raceWinner] at h
  | cons a as ih =>
    simp only [raceWinner] at h
    cases hr : raceWinner as with
    | none =>
      rw [hr] at h
      simp only [Option.some.injEq, Prod.mk.injEq] at h
      obtain ⟨rfl, rfl⟩ := h
      simp
    | some w =>
      obtain ⟨j, q⟩ := w
      rw [hr] at h
      dsimp only at h
      by_cases hle : a.1 ≤ q.1
      · rw [if_pos hle] at h
        simp only [Option.some.injEq, Prod.mk.injEq] at h
        obtain ⟨rfl, rfl⟩ := h
        simp
      · rw [if_neg hle] at h
        simp only [Option.some.injEq, Prod.mk.injEq] at h
        obtain ⟨rfl, rfl⟩ := h
        have := ih hr
        simp only [List.length_cons]
        omega

theorem raceWinner_cons_ne_none (a : Nat × PatchRecord)
    (as : List (Nat × PatchRecord)) : raceWinner (a :: as) ≠ none := by
  simp only [raceWinner]
  cases raceWinner as with
  | none => simp
  | some w =>
    obtain ⟨j, q⟩ := w
    dsimp only
    split <;> simp

theorem raceWinner_eq_none {l : List (Nat × PatchRecord)}
    (h : raceWinner l = none) : l = [] := by
  cases l with
  | nil => rfl
  | cons a as => exact absurd h (raceWinner_cons_ne_none a as)

theorem raceWinner_get {l : List (Nat × PatchRecord)} {i : Nat}
    {p : Nat × PatchRecord} (h : raceWinner l = some (i, p)) :
    l.get? i = some p := by
  induction l generalizing i p with
  | nil => simp [raceWinner] at h
  | cons a as ih =>
    simp only [raceWinner] at h
    cases hr : raceWinner as with
    | none =>
      rw [hr] at h
      simp only [Option.some.injEq, Prod.mk.injEq] at h
      obtain ⟨rfl, rfl⟩ := h
      simp
    | some w =>
      obtain ⟨j, q⟩ := w
      rw [hr] at h
      dsimp only at h
      by_cases hle : a.1 ≤ q.1
      · rw [if_pos hle] at h
        simp only [Option.some.injEq, Prod.mk.injEq] at h
        obtain ⟨rfl, rfl⟩ := h
        simp
      · rw [if_neg hle] at h
        simp only [Option.some.injEq, Prod.mk.injEq] at h
        obtain ⟨rfl, rfl⟩ := h
        simpa using ih hr

theorem raceWinner_min {l : List (Nat × PatchRecord)} {i : Nat}
    {p : Nat × PatchRecord} (h : raceWinner l = some (i, p)) :
    ∀ q ∈ l, p.1 ≤ q.1 := by
  induction l generalizing i p with
  | nil => simp [raceWinner] at h
  | cons a as ih =>
    simp only [raceWinner] at h
    cases hr : raceWinner as with
    | none =>
      rw [hr] at h
      simp only [Option.some.injEq, Prod.mk.injEq] at h
      obtain ⟨rfl, rfl⟩ := h
      intro q hq
      rcases List.mem_cons.mp hq with rfl | hq
      · exact le_refl _
      · rw [raceWinner_eq_none hr] at hq
        simp at hq
    | some w =>
      obtain ⟨j, q0⟩ := w
      rw [hr] at h
      dsimp only at h
      by_cases hle : a.1 ≤ q0.1
      · rw [if_pos hle] at h
        simp only [Option.some.injEq, Prod.mk.injEq] at h
        obtain ⟨rfl, rfl⟩ := h
        intro q hq
        rcases List.mem_cons.mp hq with rfl | hq
        · exact le_refl _
        · exact le_trans hle (ih hr q hq)
      · rw [if_neg hle] at h
        simp only [Option.some.injEq, Prod.mk.injEq] at h
        obtain ⟨rfl, rfl⟩ := h
        intro q hq
        rcases List.mem_cons.mp hq with rfl | hq
        · omega
        · exact ih hr q hq

theorem drainGo_perm :
    ∀ (fuel : Nat) (l : List (Nat × PatchRecord)), l.length ≤ fuel →
      (drainGo fuel l).Perm l := by
  intro fuel
  induction fuel with
  | zero =>
    intro l hl
    rw [List.length_eq_zero.mp (Nat.le_zero.mp hl)]
    exact List.Perm.refl _
  | succ fuel ih =>
    intro l hl
    cases hw : raceWinner l with
    | none =>
      rw [raceWinner_eq_none hw]
      simp [drainGo, raceWinner]
    | some w =>
      obtain ⟨i, p⟩ := w
      have hi := raceWinner_idx_lt hw
      have hget := raceWinner_get hw
      have hlen : (l.eraseIdx i).length = l.length - 1 :=
        List.length_eraseIdx_of_lt hi
      have hdecomp : l = l.take i ++ p :: l.drop (i + 1) := by
        conv_lhs => rw [← List.take_append_drop i l]
        rw [List.drop_eq_getElem_cons hi]
        congr 2
        have hg : l.get? i = some l[i] := by simp [List.get?_eq_getElem?, hi]
        rw [hget] at hg
        exact (Option.some.injEq _ _ ▸ hg).symm
      show (drainGo (fuel + 1) l).Perm l
      simp only [drainGo, hw]
      have h1 : (p :: drainGo fuel (l.eraseIdx i)).Perm (p :: l.eraseIdx i) :=
        List.Perm.cons p (ih (l.eraseIdx i) (by omega))
      have h2 : (p :: l.eraseIdx i).Perm l := by
        rw [List.eraseIdx_eq_take_drop_succ]
        conv_rhs => rw [hdecomp]
        exact List.perm_middle.symm
      exact h1.trans h2

theorem drainGo_sorted :
    ∀ (fuel : Nat) (l : List (Nat × PatchRecord)), l.length ≤ fuel →
      (drainGo fuel l).Pairwise (fun a b => a.1 ≤ b.1) := by
  intro fuel
  induction fuel with
  | zero => intro l _; exact List.Pairwise.nil
  | succ fuel ih =>
    intro l hl
    cases hw : raceWinner l with
    | none => simp [drainGo, hw]
    | some w =>
      obtain ⟨i, p⟩ := w
      have hi := raceWinner_idx_lt hw
      have hlen : (l.eraseIdx i).length = l.length - 1 :=
        List.length_eraseIdx_of_lt hi
      simp only [drainGo, hw]
      refine List.pairwise_cons.mpr ⟨?_, ih (l.eraseIdx i) (by omega)⟩
      intro b hb
      have hbmem : b ∈ l.eraseIdx i :=
        (drainGo_perm fuel (l.eraseIdx i) (by omega)).subset hb
      exact raceWinner_min hw b (List.mem_of_mem_eraseIdx hbmem)

theorem drainPatches_perm (l : List (Nat × PatchRecord)) :
    (drainPatches l).Perm l := drainGo_perm l.length l (le_refl _)

theorem drainPatches_sorted (l : List (Nat × PatchRecord)) :
    (drainPatches l).Pairwise (fun a b => a.1 ≤ b.1) :=
  drainGo_sorted l.length l (le_refl _)

theorem gpiShift (b : Seg) (bs : List Seg) :
    ∀ (as : List Seg) (n : Nat),
      List.map
        (fun p => if (b :: bs).get? p.1 = some p.2 then some p.2 else none)
        (List.enumFrom (n + 1) as)
      = List.map (fun p => if bs.get? p.1 = some p.2 then some p.2 else none)
          (List.enumFrom n as) := by
  intro as
  induction as with
  | nil => intro n; rfl
  | cons x xs ih =>
    intro n
    have h1 : List.enumFrom (n + 1) (x :: xs)
        = (n + 1, x) :: List.enumFrom (n + 2) xs := by
      simp [List.enumFrom]
    have h2 : List.enumFrom n (x :: xs) = (n, x) :: List.enumFrom (n + 1) xs := by
      simp [List.enumFrom]
    rw [h1, h2, List.map_cons, List.map_cons, ih (n + 1)]
    congr 1

theorem gpiCore_cons (a b : Seg) (as bs : List Seg) :
    gpiCore (a :: as) (b :: bs)
      = (if b = a ∧ truthySeg a then [a] else []) ++ gpiCore as bs := by
  simp only [gpiCore, List.enum_cons, List.map_cons, List.filterMap_cons]
  rw [gpiShift b bs as 0]
  by_cases hba : b = a
  · subst hba
    rw [if_pos (by simp)]
    by_cases ht : truthySeg b
    · simp only [ht, if_pos rfl]
      simp
      rfl
    · simp [ht]
      rfl
  · rw [if_neg (by simp [hba])]
    simp [hba]
    rfl

theorem gpiCore_eq_pointwiseAgree :
    ∀ p1 p2 : List Seg, gpiCore p1 p2 = pointwiseAgree p1 p2 := by
  intro p1
  induction p1 with
  | nil => intro p2; simp [gpiCore, pointwiseAgree]
  | cons a as ih =>
    intro p2
    cases p2 with
    | nil => simp [gpiCore, pointwiseAgree]
    | cons b bs =>
      rw [gpiCore_cons, pointwiseAgree, ih bs]
      by_cases hc : a = b ∧ truthySeg a = true
      · rw [if_pos hc, if_pos ⟨hc.1.symm, hc.2⟩]
        rfl
      · rw [if_neg hc, if_neg (fun h2 => hc ⟨h2.1.symm, h2.2⟩)]
        rfl

theorem pointwiseAgree_sublist (p1 : List Seg) :
    ∀ p2 : List Seg, (pointwiseAgree p1 p2).Sublist p1 := by
  induction p1 with
  | nil => intro p2; simp [pointwiseAgree]
  | cons a as ih =>
    intro p2
    cases p2 with
    | nil => rw [pointwiseAgree]; exact List.nil_sublist _
    | cons b bs =>
      rw [pointwiseAgree]
      split
      · exact List.Sublist.cons₂ a (ih bs)
      · exact List.Sublist.cons a (ih bs)

theorem getPathIntersection_eq_pointwiseAgree (p1 p2 : List Seg)
    (h : p2 ≠ []) : getPathIntersection p1 p2 = pointwiseAgree p1 p2 := by
  rw [getPathIntersection, if_neg (by simpa using h)]
  exact gpiCore_eq_pointwiseAgree p1 p2

theorem getPathIntersection_nil_right (p1 : List Seg) :
    getPathIntersection p1 [] = p1 := by
  rw [getPathIntersection, if_pos (by simp)]

theorem foldl_aggStep_patchErrors (vs : List PatchValue) :
    ∀ st : AggSt, (vs.foldl aggStep st).patchErrors
      = st.patchErrors ++ (vs.map (fun v => v.errors.getD [])).flatten := by
  induction vs with
  | nil => intro st; simp
  | cons v vs ih =>
    intro st
    rw [List.foldl_cons, ih]
    have h : (aggStep st v).patchErrors = st.patchErrors ++ v.errors.getD [] := by
      cases hv : v.errors with
      | none => simp [aggStep, hv]
      | some es =>
        cases es with
        | nil => simp [aggStep, hv]
        | cons e es => simp [aggStep, hv]
    rw [h]
    simp [List.append_assoc]

theorem foldl_aggStep_path (vs : List PatchValue) :
    ∀ st : AggSt, (vs.foldl aggStep st).pathIntersection
      = vs.foldl (fun acc v => getPathIntersection v.path acc)
          st.pathIntersection := by
  induction vs with
  | nil => intro st; simp
  | cons v vs ih =>
    intro st
    rw [List.foldl_cons, ih, List.foldl_cons]
    rfl

theorem foldl_aggStep_data (vs : List PatchValue) :
    ∀ st : AggSt, (vs.foldl aggStep st).patchData
      = vs.foldl (fun acc v => applyPatch acc v.path v.data) st.patchData := by
  induction vs with
  | nil => intro st; simp
  | cons v vs ih =>
    intro st
    rw [List.foldl_cons, ih, List.foldl_cons]
    rfl

theorem getProp_singleton (s : Seg) (v : JSValue) :
    getProp (.jobj [(segKey s, v)]) s = v := by
  simp [getProp, List.find?_cons]

theorem mergeFields_nil_single (k : String) (v : JSValue) :
    mergeFields ([] : List (String × JSValue)) [(k, v)] = [(k, v)] := by
  simp [mergeFields, setField]

theorem drill_applyPatch_emptyObj (p : List Seg) (d : JSValue) (h : p ≠ []) :
    p.foldl getProp (applyPatch (.jobj []) p d) = d := by
  induction p with
  | nil => exact absurd rfl h
  | cons s rest ih =>
    cases rest with
    | nil =>
      have h1 : applyPatch (.jobj []) [s] d = .jobj [(segKey s, d)] := rfl
      rw [h1, List.foldl_cons, getProp_singleton]
      rfl
    | cons s2 rest2 =>
      have h1 : applyPatch (.jobj []) (s :: s2 :: rest2) d
          = .jobj [(segKey s, applyPatch (.jobj []) (s2 :: rest2) d)] := rfl
      rw [h1, List.foldl_cons, getProp_singleton]
      exact ih (by simp)

theorem dispatchRun_time_lb (tr : PatchTree) (t : Nat) :
    ∀ e ∈ dispatchRun tr t, t + 1 ≤ e.1 := by
  refine dispatchRun.induct
    (fun tr t => ∀ e ∈ dispatchRun tr t, t + 1 ≤ e.1)
    (fun cs t => ∀ e ∈ dispatchRunList cs t, t + 1 ≤ e.1)
    ?_ ?_ ?_ tr t
  · intro label path delay children t2 tc ih e he
    rw [dispatchRun.eq_1] at he
    rcases List.mem_append.mp he with h1 | h1
    · rcases List.mem_append.mp h1 with h2 | h2
      · obtain ⟨c, _, rfl⟩ := List.mem_map.mp h2
        omega
      · have : e = (t2 + delay + 1, DEvent.signal label path) := by
          simpa using h2
        rw [this]
        omega
    · have := ih e h1
      omega
  · intro x e he
    simp [dispatchRunList] at he
  · intro c cs t2 ih1 ih2 e he
    rw [dispatchRunList] at he
    rcases List.mem_append.mp he with h1 | h1
    · exact ih1 e h1
    · exact ih2 e h1

theorem dispatchRunList_time_lb (cs : List PatchTree) (t : Nat) :
    ∀ e ∈ dispatchRunList cs t, t + 1 ≤ e.1 := by
  induction cs with
  | nil => intro e he; simp [dispatchRunList] at he
  | cons c cs ih =>
    intro e he
    rw [dispatchRunList] at he
    rcases List.mem_append.mp he with h1 | h1
    · exact dispatchRun_time_lb c t e h1
    · exact ih e h1

theorem get?_append_objN {h : Heap} {a : Nat} {fs : List (String × HVal)}
    (nd : HNode) (ha : List.get? h a = some (.objN fs)) :
    List.get? (h ++ [nd]) a = some (.objN fs) := by
  have hlt := (List.get?_eq_some.mp ha).1
  rw [List.get?_append hlt]
  exact ha

theorem applyPatchHSet_preserves (h1 : Heap) (v : HVal) (s : Seg)
    (nd : HVal) :
    h1.length ≤ (applyPatchHSet h1 v s nd).1.length ∧
    ∀ (a : Nat) (fs : List (String × HVal)),
      List.get? h1 a = some (.objN fs) →
      List.get? (applyPatchHSet h1 v s nd).1 a = some (.objN fs) := by
  cases v with
  | prim p =>
    constructor
    · simp [applyPatchHSet, allocObj]
    · intro a fs ha
      exact get?_append_objN _ ha
  | ref a2 =>
    cases hg : List.get? h1 a2 with
    | none =>
      have he : applyPatchHSet h1 (.ref a2) s nd
          = allocObj h1 (mergeFields (spreadH h1 (.ref a2))
              [(segKey s, nd)]) := by
        simp only [applyPatchHSet]
        rw [hg]
      rw [he]
      constructor
      · simp [allocObj]
      · intro a fs ha
        exact get?_append_objN _ ha
    | some node =>
      cases node with
      | objN gs =>
        have he : applyPatchHSet h1 (.ref a2) s nd
            = allocObj h1 (mergeFields (spreadH h1 (.ref a2))
                [(segKey s, nd)]) := by
          simp only [applyPatchHSet]
          rw [hg]
        rw [he]
        constructor
        · simp [allocObj]
        · intro a fs ha
          exact get?_append_objN _ ha
      | arrN xs =>
        cases hsi : segIdx? s with
        | none =>
          have he : applyPatchHSet h1 (.ref a2) s nd = (h1, .ref a2) := by
            simp only [applyPatchHSet]
            rw [hg, hsi]
          rw [he]
          exact ⟨le_refl _, fun a fs ha => ha⟩
        | some i =>
          have he : applyPatchHSet h1 (.ref a2) s nd
              = ((h1 ++ [HNode.objN (mergeFields
                    (spreadH h1 (getPropH h1 (.ref a2) s)) (spreadH h1 nd))]).set
                  a2 (.arrN (padSetH xs i (.ref h1.length))),
                  .ref a2) := by
            simp only [applyPatchHSet]
            rw [hg, hsi]
          rw [he]
          constructor
          · simp
          · intro a fs ha
            have hne : a2 ≠ a := by
              intro hEq
              rw [hEq, ha] at hg
              simp at hg
            rw [List.get?_set_ne _ _ hne]
            exact get?_append_objN _ ha

theorem applyPatchH_preserves (path : List Seg) :
    ∀ (h : Heap) (v d : HVal),
      h.length ≤ (applyPatchH h v path d).1.length ∧
      ∀ (a : Nat) (fs : List (String × HVal)),
        List.get? h a = some (.objN fs) →
        List.get? (applyPatchH h v path d).1 a = some (.objN fs) := by
  induction path with
  | nil =>
    intro h v d
    cases v with
    | prim p =>
      constructor
      · simp [applyPatchH, allocObj]
      · intro a fs ha
        exact get?_append_objN _ ha
    | ref a2 =>
      cases hg : List.get? h a2 with
      | none =>
        have he : applyPatchH h (.ref a2) [] d
            = allocObj h (mergeFields (spreadH h (.ref a2))
                [("undefined", d)]) := by
          simp only [applyPatchH]
          rw [hg]
        rw [he]
        constructor
        · simp [allocObj]
        · intro a fs ha
          exact get?_append_objN _ ha
      | some node =>
        cases node with
        | objN gs =>
          have he : applyPatchH h (.ref a2) [] d
              = allocObj h (mergeFields (spreadH h (.ref a2))
                  [("undefined", d)]) := by
            simp only [applyPatchH]
            rw [hg]
          rw [he]
          constructor
          · simp [allocObj]
          · intro a fs ha
            exact get?_append_objN _ ha
        | arrN xs =>
          have he : applyPatchH h (.ref a2) [] d = (h, .ref a2) := by
            simp only [applyPatchH]
            rw [hg]
          rw [he]
          exact ⟨le_refl _, fun a fs ha => ha⟩
  | cons s rest ih =>
    intro h v d
    rw [applyPatchH.eq_def]
    dsimp only
    by_cases hre : rest.isEmpty
    · rw [if_pos hre]
      exact applyPatchHSet_preserves h v s d
    · rw [if_neg hre]
      have hrec := ih h
        (if truthyH v && truthyH (getPropH h v s) then getPropH h v s else v) d
      set r := applyPatchH h
        (if truthyH v && truthyH (getPropH h v s) then getPropH h v s else v)
        rest d with hr
      have hfin := applyPatchHSet_preserves r.1 v s r.2
      constructor
      · exact le_trans hrec.1 hfin.1
      · intro a fs ha
        exact hfin.2 a fs (hrec.2 a fs ha)

theorem get?_append_any {h : Heap} {a : Nat} {nd0 : HNode} (x : HNode)
    (ha : List.get? h a = some nd0) : List.get? (h ++ [x]) a = some nd0 := by
  have hlt := (List.get?_eq_some.mp ha).1
  rw [List.get?_append hlt]
  exact ha

theorem get?_set_self {h : Heap} {a : Nat} (nd0 : HNode) (ha : a < h.length) :
    List.get? (h.set a nd0) a = some nd0 := by
  rw [List.get?_eq_getElem?]
  simp [List.getElem?_set_self, ha]

theorem applyPatchHSet_arr_kind (h1 : Heap) (v : HVal) (s : Seg) (nd : HVal) :
    ∀ (a : Nat) (xs : List HVal), List.get? h1 a = some (.arrN xs) →
      ∃ ys, List.get? (applyPatchHSet h1 v s nd).1 a = some (.arrN ys) := by
  intro a xs ha
  cases v with
  | prim p => exact ⟨xs, get?_append_any _ ha⟩
  | ref a2 =>
    cases hg : List.get? h1 a2 with
    | none =>
      have he : applyPatchHSet h1 (.ref a2) s nd
          = allocObj h1 (mergeFields (spreadH h1 (.ref a2))
              [(segKey s, nd)]) := by
        simp only [applyPatchHSet]
        rw [hg]
      rw [he]
      exact ⟨xs, get?_append_any _ ha⟩
    | some node =>
      cases node with
      | objN gs =>
        have he : applyPatchHSet h1 (.ref a2) s nd
            = allocObj h1 (mergeFields (spreadH h1 (.ref a2))
                [(segKey s, nd)]) := by
          simp only [applyPatchHSet]
          rw [hg]
        rw [he]
        exact ⟨xs, get?_append_any _ ha⟩
      | arrN xs2 =>
        cases hsi : segIdx? s with
        | none =>
          have he : applyPatchHSet h1 (.ref a2) s nd = (h1, .ref a2) := by
            simp only [applyPatchHSet]
            rw [hg, hsi]
          rw [he]
          exact ⟨xs, ha⟩
        | some i =>
          have he : applyPatchHSet h1 (.ref a2) s nd
              = ((h1 ++ [HNode.objN (mergeFields
                    (spreadH h1 (getPropH h1 (.ref a2) s)) (spreadH h1 nd))]).set
                  a2 (.arrN (padSetH xs2 i (.ref h1.length))),
                  .ref a2) := by
            simp only [applyPatchHSet]
            rw [hg, hsi]
          rw [he]
          by_cases hEq : a2 = a
          · subst hEq
            refine ⟨padSetH xs2 i (.ref h1.length), ?_⟩
            refine get?_set_self _ ?_
            have := (List.get?_eq_some.mp hg).1
            simp
            omega
          · rw [List.get?_set_ne _ _ hEq]
            exact ⟨xs, get?_append_any _ ha⟩

theorem applyPatchH_arr_kind (path : List Seg) :
    ∀ (h : Heap) (v d : HVal) (a : Nat) (xs : List HVal),
      List.get? h a = some (.arrN xs) →
      ∃ ys, List.get? (applyPatchH h v path d).1 a = some (.arrN ys) := by
  induction path with
  | nil =>
    intro h v d a xs ha
    cases v with
    | prim p => exact ⟨xs, get?_append_any _ ha⟩
    | ref a2 =>
      cases hg : List.get? h a2 with
      | none =>
        have he : applyPatchH h (.ref a2) [] d
            = allocObj h (mergeFields (spreadH h (.ref a2))
                [("undefined", d)]) := by
          simp only [applyPatchH]
          rw [hg]
        rw [he]
        exact ⟨xs, get?_append_any _ ha⟩
      | some node =>
        cases node with
        | objN gs =>
          have he : applyPatchH h (.ref a2) [] d
              = allocObj h (mergeFields (spreadH h (.ref a2))
                  [("undefined", d)]) := by
            simp only [applyPatchH]
            rw [hg]
          rw [he]
          exact ⟨xs, get?_append_any _ ha⟩
        | arrN xs2 =>
          have he : applyPatchH h (.ref a2) [] d = (h, .ref a2) := by
            simp only [applyPatchH]
            rw [hg]
          rw [he]
          exact ⟨xs, ha⟩
  | cons s rest ih =>
    intro h v d a xs ha
    rw [applyPatchH.eq_def]
    dsimp only
    by_cases hre : rest.isEmpty
    · rw [if_pos hre]
      exact applyPatchHSet_arr_kind h v s d a xs ha
    · rw [if_neg hre]
      obtain ⟨ys, hys⟩ := ih h
        (if truthyH v && truthyH (getPropH h v s) then getPropH h v s else v)
        d a xs ha
      exact applyPatchHSet_arr_kind _ v s _ a ys hys

theorem find?_map_set (k : String) (v : JSValue) :
    ∀ fs : List (String × JSValue), fs.any (fun p => p.1 == k) = true →
      (fs.map (fun p => if p.1 == k then (k, v) else p)).find?
        (fun p => p.1 == k) = some (k, v) := by
  intro fs
  induction fs with
  | nil => intro h; simp at h
  | cons a as ih =>
    intro h
    by_cases hk : (a.1 == k) = true
    · have he : a.1 = k := eq_of_beq hk
      simp [List.find?_cons, he]
    · have hk2 : (a.1 == k) = false := by simpa using hk
      have h2 : as.any (fun p => p.1 == k) = true := by
        rcases List.any_eq_true.mp h with ⟨x, hx, hpx⟩
        rcases List.mem_cons.mp hx with rfl | hxs
        · rw [hpx] at hk2; cases hk2
        · exact List.any_eq_true.mpr ⟨x, hxs, hpx⟩
      simp only [List.map_cons, hk2, List.find?_cons]
      simp only [Bool.false_eq_true, if_false, hk2]
      exact ih h2

theorem find?_setField (fs : List (String × JSValue)) (k : String) (v : JSValue) :
    (setField fs k v).find? (fun p => p.1 == k) = some (k, v) := by
  rw [setField]
  by_cases h : fs.any (fun p => p.1 == k)
  · rw [if_pos h]; exact find?_map_set k v fs h
  · rw [if_neg h]
    have hnone : fs.find? (fun p => p.1 == k) = none := by
      rw [List.find?_eq_none]
      intro x hx hpx
      exact h (List.any_eq_true.mpr ⟨x, hx, hpx⟩)
    rw [List.find?_append, hnone]
    simp [List.find?_cons]

theorem getProp_mergeSet (fs : List (String × JSValue)) (s : Seg) (v : JSValue) :
    getProp (.jobj (mergeFields fs [(segKey s, v)])) s = v := by
  have hm : mergeFields fs [(segKey s, v)] = setField fs (segKey s) v := rfl
  rw [hm]
  simp [getProp, find?_setField]

theorem padSet_getD (xs : List JSValue) (i : Nat) (v : JSValue) :
    (padSet xs i v).getD i .jundefined = v := by
  rw [padSet]
  by_cases h : i < xs.length
  · rw [if_pos h]
    simp [List.getD, List.get?_eq_getElem?, List.getElem?_set_self, h]
  · rw [if_neg h]
    have hlen : (xs ++ List.replicate (i - xs.length) JSValue.jundefined).length
        = i := by
      simp
      omega
    simp only [List.getD, List.get?_eq_getElem?]
    rw [List.getElem?_append_right (by rw [hlen])]
    simp [hlen]

/-- Claim C2 is false as stated: getPathIntersection of a.q.b and a.x.b is
[a, b], which differs from the longest common prefix [a] and is not even a
prefix of the first input (whose two-segment prefix is [a, q]). -/
theorem C2_counterexample :
    getPathIntersection [Seg.fld "a", Seg.fld "q", Seg.fld "b"]
        [Seg.fld "a", Seg.fld "x", Seg.fld "b"]
      = [Seg.fld "a", Seg.fld "b"]
    ∧ lcpSpec [Seg.fld "a", Seg.fld "q", Seg.fld "b"]
        [Seg.fld "a", Seg.fld "x", Seg.fld "b"]
      = [Seg.fld "a"]
    ∧ ([Seg.fld "a", Seg.fld "b"] : List Seg) ≠ [Seg.fld "a"]
    ∧ [Seg.fld "a", Seg.fld "q", Seg.fld "b"].take
        ([Seg.fld "a", Seg.fld "b"] : List Seg).length
      ≠ [Seg.fld "a", Seg.fld "b"] :=
  ⟨rfl, rfl, by decide, by decide⟩

/-- Claim C2 (amended): when the second path is empty, getPathIntersection
returns the first path in full; otherwise it returns the truthy segments
of the first path that equal the segment of the second path at the same
position — a sublist of the first path, but not in general a prefix of
either input. -/
theorem C2_amended (p1 p2 : List Seg) :
    (p2 = [] → getPathIntersection p1 p2 = p1)
    ∧ (p2 ≠ [] →
        getPathIntersection p1 p2 = pointwiseAgree p1 p2
        ∧ (getPathIntersection p1 p2).Sublist p1) := by
  constructor
  · intro h
    rw [h]
    exact getPathIntersection_nil_right p1
  · intro h
    refine ⟨getPathIntersection_eq_pointwiseAgree p1 p2 h, ?_⟩
    rw [getPathIntersection_eq_pointwiseAgree p1 p2 h]
    exact pointwiseAgree_sublist p1 p2

/-- Witness for C2 (amended), evaluating the theorem at concrete paths. -/
theorem C2_witness :
    (getPathIntersection [Seg.fld "a"] [] = [Seg.fld "a"])
    ∧ (getPathIntersection [Seg.fld "a", Seg.idx 1] [Seg.fld "a"]
        = pointwiseAgree [Seg.fld "a", Seg.idx 1] [Seg.fld "a"]
      ∧ (getPathIntersection [Seg.fld "a", Seg.idx 1]
          [Seg.fld "a"]).Sublist [Seg.fld "a", Seg.idx 1]) :=
  ⟨(C2_amended [Seg.fld "a"] []).1 rfl,
   (C2_amended [Seg.fld "a", Seg.idx 1] [Seg.fld "a"]).2 (by decide)⟩

/-- Claim C5 is false as stated: at an accumulator holding x, with path
a.b, applyPatch reuses the accumulator itself as the base of the absent
intermediate, so x reappears inside the value at a, where a walk creating
fresh empty intermediate objects — the claimed behaviour, expressed by
applyPatchClaim — would put only b there. -/
theorem C5_counterexample :
    applyPatch (.jobj [("x", .jnum 1)]) [Seg.fld "a", Seg.fld "b"] (.jnum 2)
      = .jobj [("x", .jnum 1),
          ("a", .jobj [("x", .jnum 1), ("b", .jnum 2)])]
    ∧ applyPatchClaim (.jobj [("x", .jnum 1)]) [Seg.fld "a", Seg.fld "b"]
        (.jnum 2)
      = .jobj [("x", .jnum 1), ("a", .jobj [("b", .jnum 2)])]
    ∧ (JSValue.jobj [("x", .jnum 1),
          ("a", .jobj [("x", .jnum 1), ("b", .jnum 2)])])
      ≠ .jobj [("x", .jnum 1), ("a", .jobj [("b", .jnum 2)])] :=
  ⟨rfl, rfl, by simp⟩

/-- Claim C5 (amended): applyPatch recurses through descend, which yields
the existing property value when the accumulator and that value are both
truthy and otherwise the accumulator itself — never a fresh empty object —
and then applies the assignment step setStep; at the final segment an
array accumulator gets the incoming data shallow-merged into the indexed
element, while any other accumulator gets the position overwritten with
exactly the incoming data. -/
theorem C5_amended (acc : JSValue) (s : Seg) (rest : List Seg) (d : JSValue) :
    (applyPatch acc [s] d = setStep acc s d)
    ∧ (rest ≠ [] → applyPatch acc (s :: rest) d
        = setStep acc s (applyPatch (descend acc s) rest d))
    ∧ ((getProp acc s).toBool = false → descend acc s = acc)
    ∧ (∀ fs, acc = .jobj fs → getProp (applyPatch acc [s] d) s = d)
    ∧ (∀ xs i, acc = .jarr xs → segIdx? s = some i →
        getProp (applyPatch acc [s] d) s = objMerge (getProp acc s) d) := by
  refine ⟨?_, ?_, ?_, ?_, ?_⟩
  · cases acc <;> rfl
  · intro h
    cases rest with
    | nil => exact absurd rfl h
    | cons r rs => cases acc <;> rfl
  · intro h
    rw [descend]
    simp [h]
  · intro fs hacc
    subst hacc
    have h1 : applyPatch (.jobj fs) [s] d
        = .jobj (mergeFields fs [(segKey s, d)]) := rfl
    rw [h1]
    exact getProp_mergeSet fs s d
  · intro xs i hacc hsi
    subst hacc
    have h1 : applyPatch (.jarr xs) [s] d
        = setStep (.jarr xs) s d := by cases hdum : s <;> rfl
    rw [h1, setStep, hsi]
    simp only [getProp, hsi]
    exact padSet_getD xs i (objMerge (xs.getD i .jundefined) d)

/-- Witness for C5 (amended), evaluating the theorem at concrete values. -/
theorem C5_witness :
    (applyPatch (.jobj []) [Seg.fld "k"] (.jnum 3)
        = setStep (.jobj []) (Seg.fld "k") (.jnum 3))
    ∧ applyPatch (.jobj []) [Seg.fld "k", Seg.fld "m"] (.jnum 3)
        = setStep (.jobj []) (Seg.fld "k")
            (applyPatch (descend (.jobj []) (Seg.fld "k")) [Seg.fld "m"]
              (.jnum 3))
    ∧ descend (.jobj []) (Seg.fld "k") = .jobj []
    ∧ getProp (applyPatch (.jobj []) [Seg.fld "k"] (.jnum 3)) (Seg.fld "k")
        = .jnum 3
    ∧ getProp (applyPatch (.jarr []) [Seg.idx 0] (.jnum 3)) (Seg.idx 0)
        = objMerge (getProp (.jarr []) (Seg.idx 0)) (.jnum 3) := by
  have h1 := C5_amended (.jobj []) (Seg.fld "k") [Seg.fld "m"] (.jnum 3)
  have h2 := C5_amended (.jarr []) (Seg.idx 0) [] (.jnum 3)
  exact ⟨h1.1, h1.2.1 (by decide), h1.2.2.1 rfl, h1.2.2.2.1 [] rfl,
    h2.2.2.2.2 [] 0 rfl rfl⟩

/-- Claim C8 is false in its second half: the return operation of the
patch iterator yields done true, but it does not touch the queue — a
subsequent next call still yields the remaining patch rather than
reporting done. -/
theorem C8_counterexample :
    (iterReturn [(⟨[Seg.fld "hero"], "L", .jobj [], none⟩ : PatchRecord)]).1
      = (none, true)
    ∧ (iterReturn [(⟨[Seg.fld "hero"], "L", .jobj [], none⟩ : PatchRecord)]).2
      = [⟨[Seg.fld "hero"], "L", .jobj [], none⟩]
    ∧ (iterNext ((iterReturn
        [(⟨[Seg.fld "hero"], "L", .jobj [], none⟩ : PatchRecord)]).2)).1
      = (some ⟨[Seg.fld "hero"], "L", .jobj [], none⟩, false)
    ∧ ((some (⟨[Seg.fld "hero"], "L", .jobj [], none⟩ : PatchRecord), false)
        : Option PatchRecord × Bool).2 ≠ true :=
  ⟨rfl, rfl, rfl, by simp⟩

/-- Claim C8 (amended): the return operation resolves to done true and
leaves the queue unchanged; only next consumes the queue — after any mix
of next and return calls the queue has been shortened by exactly the
number of next calls — and next reports done only once the queue is
exhausted. -/
theorem C8_amended (ops : List IterOp) (q : List PatchRecord) :
    (runIterOps ops q).2 = q.drop (ops.countP IterOp.isNext)
    ∧ iterReturn q = ((none, true), q)
    ∧ iterNext ([] : List PatchRecord) = ((none, true), []) := by
  refine ⟨?_, rfl, rfl⟩
  induction ops generalizing q with
  | nil => simp [runIterOps]
  | cons op ops ih =>
    cases op with
    | next =>
      rw [runIterOps]
      cases q with
      | nil =>
        simp only [iterNext]
        rw [ih]
        simp [List.countP_cons, IterOp.isNext]
      | cons p ps =>
        simp only [iterNext]
        rw [ih]
        simp [List.countP_cons, IterOp.isNext]
    | ret =>
      rw [runIterOps]
      simp only [iterReturn]
      rw [ih]
      simp [List.countP_cons, IterOp.isNext]

/-- Claim C9: the claim is right and the code is wrong.  On a synchronous
throw, add produces a Patch Record with data null and the raised error in
its errors list; but for a thunk returning a rejecting future the pushed
patch promise itself rejects and no Patch Record is produced, because
Promise.resolve adopts the returned promise and the isPromise rejection
branch of add is dead code.  The two cases are therefore not treated
identically, contradicting the evident intent of that branch. -/
theorem C9_eval :
    addModel "L" [Seg.fld "f"] (.thrown ⟨"boom", [Seg.fld "f"]⟩) []
      = .fulfilled ⟨[Seg.fld "f"], "L", .jnull, some [⟨"boom", [Seg.fld "f"]⟩]⟩
    ∧ addModel "L" [Seg.fld "f"] (.promiseErr ⟨"boom", [Seg.fld "f"]⟩) []
      = .rejected ⟨"boom", [Seg.fld "f"]⟩
    ∧ (PatchOutcome.rejected ⟨"boom", [Seg.fld "f"]⟩)
      ≠ .fulfilled ⟨[Seg.fld "f"], "L", .jnull, some [⟨"boom", [Seg.fld "f"]⟩]⟩ :=
  ⟨rfl, rfl, by simp⟩

theorem map_aggregateLabel_labels {α : Type} (g : α → String)
    (f : α → List PatchValue) (xs : List α) :
    ((xs.map (fun x => aggregateLabel (g x) (f x))).map (fun r => r.label))
      = xs.map g := by
  induction xs with
  | nil => rfl
  | cons x rest ih =>
    rw [List.map_cons, List.map_cons, List.map_cons, ih]
    rfl

/-- Claim C1 is false as stated: for two units sharing a label with paths
a.q.b and a.x.b, the emitted path of the aggregate Patch Record is [a, b],
while the longest common prefix of the two paths is [a]. -/
theorem C1_counterexample :
    (aggregateLabel "L"
        [⟨[Seg.fld "a", Seg.fld "q", Seg.fld "b"], .jobj [("u", .jnum 1)], none⟩,
         ⟨[Seg.fld "a", Seg.fld "x", Seg.fld "b"], .jobj [("v", .jnum 2)], none⟩]).path
      = [Seg.fld "a", Seg.fld "b"]
    ∧ lcpSpec [Seg.fld "a", Seg.fld "q", Seg.fld "b"]
        [Seg.fld "a", Seg.fld "x", Seg.fld "b"]
      = [Seg.fld "a"]
    ∧ ([Seg.fld "a", Seg.fld "b"] : List Seg) ≠ [Seg.fld "a"] :=
  ⟨rfl, rfl, by decide⟩

/-- Claim C1 (amended): for every set of dispatched units sharing a label,
getPatches emits exactly one Patch Record per label, in label registration
order; its errors list is the concatenation of all units error lists
(absent exactly when that concatenation is empty); its path is the left
fold of the positionwise truthy intersection (getPathIntersection) over
the units paths starting from the empty path — not in general the longest
common prefix; its data is the applyPatch fold of the units data trees
starting from the empty object, projected by indexing along the emitted
path; in particular a label holding a single unit with a nonempty path
emits that unit unchanged. -/
theorem C1_amended (label : String) (sibs : List (String × List PatchValue))
    (vs : List PatchValue) (p : List Seg) (d : JSValue) :
    ((getPatchesModel false sibs).getD []).map (fun r => r.label)
      = sibs.map (fun kv => kv.1)
    ∧ (aggregateLabel label vs).errors
      = (if ((vs.map (fun v => v.errors.getD [])).flatten).isEmpty then none
         else some ((vs.map (fun v => v.errors.getD [])).flatten))
    ∧ (aggregateLabel label vs).path
      = vs.foldl (fun acc v => getPathIntersection v.path acc) []
    ∧ (aggregateLabel label vs).data
      = (vs.foldl (fun acc v => getPathIntersection v.path acc) []).foldl
          getProp
          (vs.foldl (fun acc v => applyPatch acc v.path v.data) (.jobj []))
    ∧ (p ≠ [] → aggregateLabel label [⟨p, d, none⟩]
        = ⟨p, label, d, none⟩) := by
  refine ⟨?_, ?_, ?_, ?_, ?_⟩
  · show ((sibs.map (fun kv => aggregateLabel kv.1 kv.2)).map
        (fun r => r.label)) = sibs.map (fun kv => kv.1)
    exact map_aggregateLabel_labels (fun kv => kv.1) (fun kv => kv.2) sibs
  · show (if (vs.foldl aggStep ⟨[], [], .jobj []⟩).patchErrors.isEmpty
        then none
        else some (vs.foldl aggStep ⟨[], [], .jobj []⟩).patchErrors) = _
    rw [foldl_aggStep_patchErrors]
    simp
  · show (vs.foldl aggStep ⟨[], [], .jobj []⟩).pathIntersection = _
    rw [foldl_aggStep_path]
  · show (vs.foldl aggStep ⟨[], [], .jobj []⟩).pathIntersection.foldl getProp
        (vs.foldl aggStep ⟨[], [], .jobj []⟩).patchData = _
    rw [foldl_aggStep_path, foldl_aggStep_data]
  · intro hp
    show ({ path := (List.foldl aggStep ⟨[], [], .jobj []⟩ [⟨p, d, none⟩]).pathIntersection
            label := label
            data := _
            errors := _ } : PatchRecord) = _
    have hpath : (aggStep ⟨[], [], .jobj []⟩
        (⟨p, d, none⟩ : PatchValue)).pathIntersection = p := by
      show getPathIntersection p [] = p
      exact getPathIntersection_nil_right p
    have herr : (aggStep ⟨[], [], .jobj []⟩
        (⟨p, d, none⟩ : PatchValue)).patchErrors = [] := rfl
    have hdata : (aggStep ⟨[], [], .jobj []⟩
        (⟨p, d, none⟩ : PatchValue)).patchData
        = applyPatch (.jobj []) p d := rfl
    simp [aggregateLabel, PatchRecord.mk.injEq, hpath, herr, hdata,
      drill_applyPatch_emptyObj p d hp]

/-- Witness for C1 (amended), evaluating the single-unit case at the
deferred-scalar scenario of the spec. -/
theorem C1_witness :
    aggregateLabel "NameFragment"
        [⟨[Seg.fld "hero"], .jobj [("name", .jstr "R2-D2")], none⟩]
      = ⟨[Seg.fld "hero"], "NameFragment",
          .jobj [("name", .jstr "R2-D2")], none⟩ :=
  (C1_amended "NameFragment" [] [] [Seg.fld "hero"]
    (.jobj [("name", .jstr "R2-D2")])).2.2.2.2 (by decide)

/-- Claim C3 is false for PatchDispatcher.getPatches: with label A
registered first, all of whose units complete at instant 10, and label B
registered second, all of whose units complete at instant 1, the sequence
still yields the aggregate of A before that of B — label registration
order, not completion order. -/
theorem C3_counterexample :
    ((getPatchesEmission
        [("A", [⟨10, ⟨[Seg.fld "fa"], .jobj [], none⟩⟩]),
         ("B", [⟨1, ⟨[Seg.fld "fb"], .jobj [], none⟩⟩])]).map
      (fun r => r.label)) = ["A", "B"]
    ∧ (1 : Nat) < 10
    ∧ (["A", "B"] : List String) ≠ ["B", "A"] :=
  ⟨rfl, by decide, by decide⟩

theorem map_timed_labels (sibs : List (String × List TimedPatchValue)) :
    ((getPatchesEmission sibs).map (fun r => r.label))
      = sibs.map (fun kv => kv.1) := by
  rw [getPatchesEmission]
  exact map_aggregateLabel_labels (fun kv => kv.1)
    (fun kv => kv.2.map (fun tv => tv.value)) sibs

/-- Claim C3 (amended): the flat Dispatcher.get does emit patches in
completion order — its race-driven drain yields a permutation of the
registered patches whose completion instants are nondecreasing — while
PatchDispatcher.getPatches emits one aggregate per label in label
registration order, whatever the completion instants are. -/
theorem C3_amended (l : List (Nat × PatchRecord))
    (sibs : List (String × List TimedPatchValue)) :
    ((drainPatches l).Pairwise (fun a b => a.1 ≤ b.1)
      ∧ (drainPatches l).Perm l)
    ∧ ((getPatchesEmission sibs).map (fun r => r.label)
        = sibs.map (fun kv => kv.1)) :=
  ⟨⟨drainPatches_sorted l, drainPatches_perm l⟩, map_timed_labels sibs⟩

/-- Claim C4 is false in its consequence: for a parent patch with one
registered child, the child dispatch call and the parent resolver signal
both happen at instant 1, with the dispatch first in program order, but
the child patch completes only at instant 2 — after the parent patch, not
before it. -/
theorem C4_counterexample :
    dispatchRun (.node "L" [Seg.fld "parent"] 0
        [.node "L" [Seg.fld "child"] 0 []]) 0
      = [(1, .childDispatch "L" [Seg.fld "child"]),
         (1, .signal "L" [Seg.fld "parent"]),
         (2, .signal "L" [Seg.fld "child"])]
    ∧ ¬ ((2 : Nat) ≤ 1) :=
  ⟨rfl, by decide⟩

/-- Claim C4 (amended): in the completion handler of a dispatched patch,
the dispatch calls for all registered children occupy the trace positions
strictly before the resolver signal (children are dispatched before the
parent resolver is signaled), and every event of the child subtrees — in
particular every child completion — happens at an instant strictly after
that of the parent signal: children complete after the parent patch, not
before it. -/
theorem C4_amended (label : String) (path : List Seg) (delay : Nat)
    (cs : List PatchTree) (t : Nat) :
    ((dispatchRun (.node label path delay cs) t).take cs.length
        = cs.map (fun c => (t + delay + 1, DEvent.childDispatch label c.pathOf)))
    ∧ ((dispatchRun (.node label path delay cs) t).get? cs.length
        = some (t + delay + 1, DEvent.signal label path))
    ∧ (∀ e ∈ dispatchRunList cs (t + delay + 1), t + delay + 1 < e.1) := by
  refine ⟨?_, ?_, ?_⟩
  · rw [dispatchRun.eq_1, List.append_assoc]
    have hlen : cs.length = (cs.map (fun c =>
        (t + delay + 1, DEvent.childDispatch label c.pathOf))).length := by
      rw [List.length_map]
    rw [hlen, List.take_left]
  · rw [dispatchRun.eq_1, List.append_assoc]
    have hlen : cs.length = (cs.map (fun c =>
        (t + delay + 1, DEvent.childDispatch label c.pathOf))).length := by
      rw [List.length_map]
    rw [hlen, List.get?_append_right (le_refl _)]
    simp
  · intro e he
    have := dispatchRunList_time_lb cs (t + delay + 1) e he
    omega

/-- Witness for C4 (amended), evaluating the theorem at a concrete tree. -/
theorem C4_witness :
    ((dispatchRun (.node "L" [Seg.fld "p"] 0
          [.node "L" [Seg.fld "c"] 0 []]) 0).take 1
        = [(1, DEvent.childDispatch "L" [Seg.fld "c"])])
    ∧ ((dispatchRun (.node "L" [Seg.fld "p"] 0
          [.node "L" [Seg.fld "c"] 0 []]) 0).get? 1
        = some (1, DEvent.signal "L" [Seg.fld "p"]))
    ∧ (0 + 0 + 1
        < ((2, DEvent.signal "L" [Seg.fld "c"]) : Nat × DEvent).1) := by
  have h := C4_amended "L" [Seg.fld "p"] 0 [.node "L" [Seg.fld "c"] 0 []] 0
  exact ⟨h.1, h.2.1, h.2.2 (2, DEvent.signal "L" [Seg.fld "c"]) (by decide)⟩

theorem range_getD_drop (elems : List JSValue) (n : Nat)
    (h : n ≤ elems.length) :
    (List.range (elems.length - n)).map
        (fun k => elems.getD (n + k) .jundefined)
      = elems.drop n := by
  apply List.ext_getElem
  · simp
  · intro i h1 h2
    simp only [List.getElem_map, List.getElem_range]
    have hin : n + i < elems.length := by
      simp at h1
      omega
    rw [List.getD_eq_getElem?_getD, List.getElem?_eq_getElem hin]
    simp [List.getElem_drop]

/-- Claim C6 (spec-modelled, the Executor is not under src): for stream
with initial count N on a list field of length M with M at least N, the
initial result holds exactly the first N elements and exactly M minus N
patches are produced, one per trailing element in list order, carrying
that element as data, with paths the field path extended by the indices
N, N+1, ..., M-1, compared as a multiset. -/
theorem C6_stream (fieldPath : List Seg) (label : String) (n : Nat)
    (elems : List JSValue) (h : n ≤ elems.length) :
    (streamExecute fieldPath label n elems).1 = elems.take n
    ∧ ((streamExecute fieldPath label n elems).1).length = n
    ∧ ((streamExecute fieldPath label n elems).2).length = elems.length - n
    ∧ ((streamExecute fieldPath label n elems).2).map (fun r => r.data)
        = elems.drop n
    ∧ (((streamExecute fieldPath label n elems).2).map (fun r => r.path)
          : Multiset (List Seg))
      = (((List.range (elems.length - n)).map
          (fun k => fieldPath ++ [Seg.idx (n + k)])) : Multiset (List Seg)) := by
  refine ⟨rfl, ?_, ?_, ?_, ?_⟩
  · simp [streamExecute]
    omega
  · simp [streamExecute]
  · show ((List.range (elems.length - n)).map (fun k =>
        ({ path := fieldPath ++ [Seg.idx (n + k)], label := label,
           data := elems.getD (n + k) .jundefined,
           errors := none } : PatchRecord))).map (fun r => r.data)
      = elems.drop n
    rw [List.map_map]
    exact range_getD_drop elems n h
  · congr 1
    show ((List.range (elems.length - n)).map (fun k =>
        ({ path := fieldPath ++ [Seg.idx (n + k)], label := label,
           data := elems.getD (n + k) .jundefined,
           errors := none } : PatchRecord))).map (fun r => r.path)
      = _
    rw [List.map_map]
    rfl

/-- Witness for C6, evaluating the theorem on a three-element list with
initial count two, as in the stream test. -/
theorem C6_witness :
    (2 ≤ ([JSValue.jstr "Luke", .jstr "Han", .jstr "Leia"] : List JSValue).length)
    ∧ (streamExecute [Seg.fld "hero", Seg.fld "friends"] "HeroFriends" 2
        [.jstr "Luke", .jstr "Han", .jstr "Leia"]).1
      = [.jstr "Luke", .jstr "Han"]
    ∧ ((streamExecute [Seg.fld "hero", Seg.fld "friends"] "HeroFriends" 2
        [.jstr "Luke", .jstr "Han", .jstr "Leia"]).2).length = 1 := by
  have h := C6_stream [Seg.fld "hero", Seg.fld "friends"] "HeroFriends" 2
    [.jstr "Luke", .jstr "Han", .jstr "Leia"] (by decide)
  exact ⟨by decide, h.1, h.2.2.1⟩

theorem foldl_applyPOp_isEmpty (ops : List POp) :
    ∀ s : PDState, ((ops.foldl applyPOp s).isEmpty)
      = (s.isEmpty && ops.all (fun op => !op.isDispatch)) := by
  induction ops with
  | nil => intro s; simp
  | cons op ops ih =>
    intro s
    rw [List.foldl_cons, ih]
    cases op with
    | dispatch l p v => simp [applyPOp, POp.isDispatch]
    | deferDispatch l pp p2 => simp [applyPOp, POp.isDispatch]

/-- Claim C7: getPatches returns a sequence iff at least one unit was
dispatched before the call — deferDispatch alone leaves the dispatcher
empty and getPatches returns null; likewise the flat Dispatcher.get
returns null iff no add call was ever made. -/
theorem C7_nonEmpty (ops : List POp) (calls : List AddCall) :
    ((getPatchesModel (runPOps ops).isEmpty (runPOps ops).siblings).isNone
      = ops.all (fun op => !op.isDispatch))
    ∧ ((getPatchesModel (runPOps ops).isEmpty (runPOps ops).siblings = none)
        ↔ ∀ op ∈ ops, op.isDispatch = false)
    ∧ ((dispatcherGet (runAdds calls)).isNone = calls.isEmpty)
    ∧ ((dispatcherGet (runAdds calls) = none) ↔ calls = []) := by
  have hNone : ∀ (b : Bool) (sibs : List (String × List PatchValue)),
      (getPatchesModel b sibs).isNone = b := by
    intro b sibs
    cases b <;> rfl
  have h1 : (runPOps ops).isEmpty = ops.all (fun op => !op.isDispatch) := by
    have := foldl_applyPOp_isEmpty ops ⟨true, [], []⟩
    simpa [runPOps] using this
  refine ⟨?_, ?_, ?_, ?_⟩
  · rw [hNone, h1]
  · rw [← Option.isNone_iff_eq_none, hNone, h1]
    rw [List.all_eq_true]
    constructor
    · intro ha op hop
      have := ha op hop
      simpa using this
    · intro ha op hop
      simpa using ha op hop
  · cases calls <;> rfl
  · cases calls with
    | nil => simp [dispatcherGet, runAdds]
    | cons c cs => simp [dispatcherGet, runAdds]

/-- Witness for C7, evaluating the theorem at concrete operation lists. -/
theorem C7_witness :
    ((getPatchesModel
        (runPOps [POp.deferDispatch "L" [Seg.fld "hero"] [Seg.fld "hero"]]).isEmpty
        (runPOps [POp.deferDispatch "L" [Seg.fld "hero"] [Seg.fld "hero"]]).siblings)
      = none)
    ∧ ((getPatchesModel
        (runPOps [POp.dispatch "L" [Seg.fld "hero"]
          ⟨[Seg.fld "hero"], .jobj [], none⟩]).isEmpty
        (runPOps [POp.dispatch "L" [Seg.fld "hero"]
          ⟨[Seg.fld "hero"], .jobj [], none⟩]).siblings)
      ≠ none)
    ∧ dispatcherGet (runAdds []) = none := by
  refine ⟨?_, ?_, ?_⟩
  · exact (C7_nonEmpty [POp.deferDispatch "L" [Seg.fld "hero"] [Seg.fld "hero"]]
      []).2.1.mpr (by decide)
  · intro hc
    have := (C7_nonEmpty [POp.dispatch "L" [Seg.fld "hero"]
        ⟨[Seg.fld "hero"], .jobj [], none⟩] []).2.1.mp hc
    have h2 := this (POp.dispatch "L" [Seg.fld "hero"]
        ⟨[Seg.fld "hero"], .jobj [], none⟩) (by simp)
    simp [POp.isDispatch] at h2
  · exact (C7_nonEmpty [] []).2.2.2.mpr rfl

theorem applyPatchH_cons (h : Heap) (v : HVal) (s : Seg) (rest : List Seg)
    (d : HVal) :
    applyPatchH h v (s :: rest) d
      = applyPatchHSet
          (if rest.isEmpty then (h, d)
            else applyPatchH h
              (if truthyH v && truthyH (getPropH h v s) then getPropH h v s
                else v) rest d).1
          v s
          (if rest.isEmpty then (h, d)
            else applyPatchH h
              (if truthyH v && truthyH (getPropH h v s) then getPropH h v s
                else v) rest d).2 := rfl

theorem recHeap_facts (h : Heap) (v : HVal) (s : Seg) (rest : List Seg)
    (d : HVal) :
    h.length ≤ (if rest.isEmpty then (h, d)
        else applyPatchH h
          (if truthyH v && truthyH (getPropH h v s) then getPropH h v s
            else v) rest d).1.length
    ∧ (∀ (a : Nat) (fs : List (String × HVal)),
        List.get? h a = some (.objN fs) →
        List.get? (if rest.isEmpty then (h, d)
            else applyPatchH h
              (if truthyH v && truthyH (getPropH h v s) then getPropH h v s
                else v) rest d).1 a = some (.objN fs))
    ∧ (∀ (a : Nat) (xs : List HVal),
        List.get? h a = some (.arrN xs) →
        ∃ ys, List.get? (if rest.isEmpty then (h, d)
            else applyPatchH h
              (if truthyH v && truthyH (getPropH h v s) then getPropH h v s
                else v) rest d).1 a = some (.arrN ys)) := by
  by_cases hre : rest.isEmpty
  · simp only [if_pos hre]
    exact ⟨le_refl _, fun a fs ha => ha, fun a xs ha => ⟨xs, ha⟩⟩
  · simp only [if_neg hre]
    exact ⟨(applyPatchH_preserves rest h _ d).1,
      (applyPatchH_preserves rest h _ d).2,
      applyPatchH_arr_kind rest h _ d⟩

theorem applyPatchHSet_arr_eq (h1 : Heap) (a : Nat) (ys : List HVal)
    (s : Seg) (i : Nat) (nd : HVal)
    (hg : List.get? h1 a = some (.arrN ys)) (hsi : segIdx? s = some i) :
    applyPatchHSet h1 (.ref a) s nd
      = ((h1 ++ [HNode.objN (mergeFields
            (spreadH h1 (getPropH h1 (.ref a) s)) (spreadH h1 nd))]).set a
          (.arrN (padSetH ys i (.ref h1.length))),
         .ref a) := by
  simp only [applyPatchHSet]
  rw [hg, hsi]

theorem applyPatchHSet_obj_eq (h1 : Heap) (a : Nat)
    (gs : List (String × HVal)) (s : Seg) (nd : HVal)
    (hg : List.get? h1 a = some (.objN gs)) :
    applyPatchHSet h1 (.ref a) s nd
      = allocObj h1 (mergeFields (spreadH h1 (.ref a)) [(segKey s, nd)]) := by
  simp only [applyPatchHSet]
  rw [hg]

/-- Claim C10 is false in its second half: with an object accumulator
whose field holds an array, applyPatchH returns a freshly constructed
object, but the array node reachable from the accumulator along the path
is mutated in place, so the accumulator argument does not remain
unchanged. -/
theorem C10_counterexample :
    ((applyPatchH [.objN [("a", .ref 1)], .arrN [.ref 2], .objN []]
        (.ref 0) [Seg.fld "a", Seg.idx 0] (.prim (.pnum 7))).2 = .ref 4)
    ∧ (List.get? (applyPatchH [.objN [("a", .ref 1)], .arrN [.ref 2], .objN []]
        (.ref 0) [Seg.fld "a", Seg.idx 0] (.prim (.pnum 7))).1 1
      = some (.arrN [.ref 3]))
    ∧ (List.get? [HNode.objN [("a", HVal.ref 1)], .arrN [.ref 2], .objN []] 1
      = some (.arrN [.ref 2]))
    ∧ (getPropH (applyPatchH [.objN [("a", .ref 1)], .arrN [.ref 2], .objN []]
        (.ref 0) [Seg.fld "a", Seg.idx 0] (.prim (.pnum 7))).1
        (.ref 0) (Seg.fld "a") = .ref 1)
    ∧ ((HNode.arrN [.ref 3]) ≠ .arrN [.ref 2]) :=
  ⟨rfl, rfl, rfl, rfl, by decide⟩

/-- Claim C10 (amended): when the accumulator references an array node
and the first segment is an index, applyPatchH returns the very same
reference and writes the merged element into that node in place; when it
references an object node, a fresh reference at or beyond the old heap
bound is returned and the accumulator node itself — like every object
node — is left unchanged, although array nodes reachable along the path
may still be mutated; a primitive accumulator likewise yields a fresh
object. -/
theorem C10_amended (h : Heap) (s : Seg) (rest : List Seg) (d : HVal) :
    (∀ (a : Nat) (xs : List HVal) (i : Nat),
        List.get? h a = some (.arrN xs) → segIdx? s = some i →
        (applyPatchH h (.ref a) (s :: rest) d).2 = .ref a
        ∧ ∃ ys m, List.get? (applyPatchH h (.ref a) (s :: rest) d).1 a
            = some (.arrN (padSetH ys i m)))
    ∧ (∀ (a : Nat) (gs : List (String × HVal)),
        List.get? h a = some (.objN gs) →
        ∃ m, (applyPatchH h (.ref a) (s :: rest) d).2 = .ref m
          ∧ h.length ≤ m
          ∧ List.get? (applyPatchH h (.ref a) (s :: rest) d).1 a
              = some (.objN gs))
    ∧ (∀ p : Prim, ∃ m,
        (applyPatchH h (.prim p) (s :: rest) d).2 = .ref m
        ∧ h.length ≤ m) := by
  refine ⟨?_, ?_, ?_⟩
  · intro a xs i ha hsi
    obtain ⟨ys, hys⟩ := (recHeap_facts h (.ref a) s rest d).2.2 a xs ha
    rw [applyPatchH_cons, applyPatchHSet_arr_eq _ a ys s i _ hys hsi]
    refine ⟨rfl, ys,
      HVal.ref (if rest.isEmpty then (h, d)
        else applyPatchH h
          (if truthyH (HVal.ref a) && truthyH (getPropH h (HVal.ref a) s)
            then getPropH h (HVal.ref a) s else HVal.ref a) rest d).1.length,
      ?_⟩
    refine get?_set_self _ ?_
    have hlt := (List.get?_eq_some.mp hys).1
    rw [List.length_append]
    simp only [List.length_cons, List.length_nil]
    omega
  · intro a gs ha
    have hobj := (recHeap_facts h (.ref a) s rest d).2.1 a gs ha
    rw [applyPatchH_cons, applyPatchHSet_obj_eq _ a gs s _ hobj]
    exact ⟨_, rfl, le_trans (recHeap_facts h (.ref a) s rest d).1 (le_refl _),
      get?_append_objN _ hobj⟩
  · intro p
    rw [applyPatchH_cons]
    refine ⟨_, rfl, ?_⟩
    exact (recHeap_facts h (.prim p) s rest d).1

/-- Witness for C10 (amended), evaluating the theorem on a concrete
heap. -/
theorem C10_witness :
    ((applyPatchH [.objN [("a", .ref 1)], .arrN [.ref 2]] (.ref 1)
        [Seg.idx 0] (.prim (.pnum 5))).2 = .ref 1
      ∧ ∃ ys m, List.get? (applyPatchH [.objN [("a", .ref 1)], .arrN [.ref 2]]
          (.ref 1) [Seg.idx 0] (.prim (.pnum 5))).1 1
          = some (.arrN (padSetH ys 0 m)))
    ∧ (∃ m, (applyPatchH [.objN [("a", .ref 1)], .arrN [.ref 2]] (.ref 0)
        [Seg.idx 0] (.prim (.pnum 5))).2 = .ref m
      ∧ ([HNode.objN [("a", .ref 1)], .arrN [.ref 2]] : Heap).length ≤ m
      ∧ List.get? (applyPatchH [.objN [("a", .ref 1)], .arrN [.ref 2]]
          (.ref 0) [Seg.idx 0] (.prim (.pnum 5))).1 0
          = some (.objN [("a", .ref 1)])) := by
  have h1 := C10_amended [.objN [("a", .ref 1)], .arrN [.ref 2]] (Seg.idx 0)
    [] (.prim (.pnum 5))
  exact ⟨h1.1 1 [.ref 2] 0 rfl rfl, h1.2.1 0 [("a", .ref 1)] rfl⟩
